import Mathlib

/-!
# Sharpened two-stage FDR q-values: a verified model

A shallow embedding, over `ℚ`, of `sharp_q_values.py`: the
Benjamini-Krieger-Yekutieli (2006) sharpened two-stage FDR q-value
computation as operationalized by Anderson (2008).

* `bh_num_rejections` embeds the helper of the same name: the number of
  Benjamini-Hochberg rejections at a given level.
* `compute_q` embeds the main function `compute_q`: validation, stable
  argsort, a descending sweep over the level grid with two BH passes per
  level, and the scatter back to input order.  Failure (`ValueError` in the
  source) is modelled with `Except String`.

P-values are rationals: the source works in IEEE double precision, but every
quantity it manipulates on the claims' inputs is an exact small rational, and
`ℚ` keeps the arithmetic exact and decidable.  NaN is not representable in
`ℚ`, so the NaN rejection branch of `validate` has no inhabitant here.
-/

namespace SharpQ

/-- Number of BH rejections at level `alpha`: the loop of
`bh_num_rejections` in the source, scanning every rank `1..m` and keeping
the last (hence largest) rank `r` with `p_(r) ≤ alpha * r / m`. -/
def bh_num_rejections (sorted_pvals : List ℚ) (alpha : ℚ) : ℕ :=
  (List.range sorted_pvals.length).foldl
    (fun total_rejected r =>
      if sorted_pvals.getD r 0 ≤ alpha * ((r + 1 : ℕ) : ℚ) / (sorted_pvals.length : ℚ) then
        r + 1
      else total_rejected)
    0

/-- The validation of `validate` in the source: error on an empty list or on
any element outside `[0, 1]`.  (The source also rejects NaN, which `ℚ` cannot
represent.) -/
def validate (ps : List ℚ) : Except String Unit :=
  if ps.length = 0 then .error "Empty p-value list"
  else if ps.all (fun p => decide (0 ≤ p) && decide (p ≤ 1)) then .ok ()
  else .error "Invalid p-value"

/-- `int(round(1.0 / step))`, the number of grid steps. -/
def n_steps (step : ℚ) : ℕ := (round (1 / step)).toNat

/-- The descending level grid swept by the source's
`for i in range(n_steps, 0, -1): qval = i * step`: the levels
`n_steps * step, (n_steps - 1) * step, ..., 1 * step` in iteration order. -/
def grid (step : ℚ) : List ℚ :=
  (List.range (n_steps step)).map (fun j => ((n_steps step - j : ℕ) : ℚ) * step)

/-- The order `np.argsort(pvals, kind="stable")` sorts indices by: strictly
smaller value first, ties broken by original position.  This lexicographic
order on (value, index) is exactly the characterization of a stable argsort,
and it is a total order on indices, so the sorted index list is unique. -/
def argsortRel (pvals : List ℚ) (i j : ℕ) : Prop :=
  pvals.getD i 0 < pvals.getD j 0 ∨ (pvals.getD i 0 = pvals.getD j 0 ∧ i ≤ j)

instance argsortRel.decidable (pvals : List ℚ) : DecidableRel (argsortRel pvals) :=
  fun i j => by unfold argsortRel; infer_instance

instance argsortRel.total (pvals : List ℚ) : IsTotal ℕ (argsortRel pvals) := by
  constructor
  intro i j
  rcases lt_trichotomy (pvals.getD i 0) (pvals.getD j 0) with h | h | h
  · exact Or.inl (Or.inl h)
  · rcases Nat.le_total i j with hij | hij
    · exact Or.inl (Or.inr ⟨h, hij⟩)
    · exact Or.inr (Or.inr ⟨h.symm, hij⟩)
  · exact Or.inr (Or.inl h)

instance argsortRel.trans (pvals : List ℚ) : IsTrans ℕ (argsortRel pvals) := by
  constructor
  intro a b c hab hbc
  rcases hab with hab | ⟨hab, hab2⟩ <;> rcases hbc with hbc | ⟨hbc, hbc2⟩
  · exact Or.inl (hab.trans hbc)
  · exact Or.inl (hbc ▸ hab)
  · exact Or.inl (hab ▸ hbc)
  · exact Or.inr ⟨hab.trans hbc, hab2.trans hbc2⟩

/-- The stable argsort `original_sorting_order = np.argsort(pvals, kind="stable")`:
the indices `0..m-1` sorted by the stable-argsort order `argsortRel`. -/
def argsort (pvals : List ℚ) : List ℕ :=
  List.insertionSort (argsortRel pvals) (List.range pvals.length)

/-- `sorted_pval = pvals[original_sorting_order]`: the p-values gathered in
sorted order. -/
def gatherSorted (pvals : List ℚ) : List ℚ :=
  (argsort pvals).map (fun k => pvals.getD k 0)

/-- One grid level of the sweep body of `compute_q`: the stage-1 conservative
BH pass at `qval / (1 + qval)`, then the stage-2 adaptive count
`total_rejected2`, with the source's shortcut `total_rejected2 = totalpvals`
when stage 1 rejected everything. -/
def stage2_count (sorted_pval : List ℚ) (qval : ℚ) : ℕ :=
  if bh_num_rejections sorted_pval (qval / (1 + qval)) = sorted_pval.length then
    sorted_pval.length
  else
    bh_num_rejections sorted_pval
      (qval / (1 + qval) *
        ((sorted_pval.length : ℚ) /
          ((sorted_pval.length : ℚ) -
            (bh_num_rejections sorted_pval (qval / (1 + qval)) : ℚ))))

/-- The update loop `for rank in range(total_rejected2): if qval <
bky06_qval[rank]: bky06_qval[rank] = qval`: overwrite each of the first `r`
entries with `qval` when `qval` is strictly smaller. -/
def update_bky (qval : ℚ) : ℕ → List ℚ → List ℚ
  | _, [] => []
  | 0, bky => bky
  | r + 1, q :: rest => (if qval < q then qval else q) :: update_bky qval r rest

/-- One iteration of the sweep at level `qval`. -/
def sweep_step (sorted_pval : List ℚ) (bky : List ℚ) (qval : ℚ) : List ℚ :=
  update_bky qval (stage2_count sorted_pval qval) bky

/-- The per-hypothesis running minima `bky06_qval` at sweep end: initialized
to all ones, then one `sweep_step` per grid level, in sorted-p-value order. -/
def bky06_final (pvals : List ℚ) (step : ℚ) : List ℚ :=
  (grid step).foldl (sweep_step (gatherSorted pvals)) (List.replicate pvals.length 1)

/-- The main function `compute_q`: validate, sort, sweep the descending grid
starting from all-ones, scatter back to input order
(`qvals[original_sorting_order] = bky06_qval`, i.e.
`qvals[i] = bky06_qval[position of i in the argsort]`). -/
def compute_q (pvals : List ℚ) (step : ℚ) : Except String (List ℚ) := do
  validate pvals
  pure ((List.range pvals.length).map
    (fun i => (bky06_final pvals step).getD ((argsort pvals).indexOf i) 0))

/-- Spec-side per-level stage-2 count: the reference per-level algorithm of
spec §4.2 with the explicit `m0_hat` estimate (floored at 1 when stage 1
rejects at least `m`) and the stage-2 level capped at 1.  This definition
follows the spec's words, for comparison with `stage2_count`, which follows
the code. -/
def stage2_count_spec (sorted_pval : List ℚ) (qval : ℚ) : ℕ :=
  bh_num_rejections sorted_pval
    (min (qval / (1 + qval) *
      ((sorted_pval.length : ℚ) /
        ((if bh_num_rejections sorted_pval (qval / (1 + qval)) = 0 then sorted_pval.length
          else if sorted_pval.length ≤ bh_num_rejections sorted_pval (qval / (1 + qval)) then 1
          else sorted_pval.length - bh_num_rejections sorted_pval (qval / (1 + qval)) : ℕ) : ℚ)))
      1)

/-- Spec-side final minima: as `bky06_final` with the spec's per-level body. -/
def bky06_final_spec (pvals : List ℚ) (step : ℚ) : List ℚ :=
  (grid step).foldl
    (fun bky qval => update_bky qval (stage2_count_spec (gatherSorted pvals) qval) bky)
    (List.replicate pvals.length 1)

/-- Spec-side sweep: `compute_q` with the per-level body replaced by the
spec's capped, floored formulation `stage2_count_spec`. -/
def compute_q_spec (pvals : List ℚ) (step : ℚ) : Except String (List ℚ) := do
  validate pvals
  pure ((List.range pvals.length).map
    (fun i => (bky06_final_spec pvals step).getD ((argsort pvals).indexOf i) 0))

/-- Rank `r` (1-based) satisfies the BH step-up inequality
`p_(r) ≤ alpha * r / m` against the list `l`. -/
def bh_sat (l : List ℚ) (alpha : ℚ) (r : ℕ) : Prop :=
  l.getD (r - 1) 0 ≤ alpha * (r : ℚ) / (l.length : ℚ)

instance bh_sat.decidable (l : List ℚ) (alpha : ℚ) (r : ℕ) :
    Decidable (bh_sat l alpha r) := by
  unfold bh_sat
  infer_instance

/-- The sweep reformulated as a count-down recursion: starting from `bky`,
process levels `hi * step, (hi - 1) * step, ...` for `cnt` iterations.  Used
to evaluate the 1000-level sweep in bounded-depth chunks; `sweepN_chunks`
proves it equal to the fold over `grid`. -/
def sweepN (sorted_pval : List ℚ) (step : ℚ) : List ℚ → ℕ → ℕ → List ℚ
  | bky, _, 0 => bky
  | bky, hi, cnt + 1 =>
      sweepN sorted_pval step (sweep_step sorted_pval bky ((hi : ℚ) * step)) (hi - 1) cnt

/-! ## The level grid -/

lemma n_steps_of_div (n : ℕ) : n_steps (1 / (n : ℚ)) = n := by
  unfold n_steps
  rw [one_div_one_div, round_natCast, Int.toNat_ofNat]

lemma mem_grid {step q : ℚ} :
    q ∈ grid step ↔ ∃ i : ℕ, 1 ≤ i ∧ i ≤ n_steps step ∧ q = (i : ℚ) * step := by
  unfold grid
  simp only [List.mem_map, List.mem_range]
  constructor
  · rintro ⟨j, hj, rfl⟩
    exact ⟨n_steps step - j, by omega, by omega, rfl⟩
  · rintro ⟨i, hi1, hi2, rfl⟩
    refine ⟨n_steps step - i, by omega, ?_⟩
    have : n_steps step - (n_steps step - i) = i := by omega
    rw [this]

lemma step_pos_of_n_steps_pos {step : ℚ} (h : 1 ≤ n_steps step) : 0 < step := by
  unfold n_steps at h
  have h1 : 1 ≤ round (1 / step) := by omega
  rw [round_eq, Int.le_floor] at h1
  push_cast at h1
  have h2 : (0 : ℚ) < 1 / step := by linarith
  exact (one_div_pos).mp h2

lemma grid_pos {step q : ℚ} (h : q ∈ grid step) : 0 < q := by
  rcases mem_grid.mp h with ⟨i, hi1, hi2, rfl⟩
  have hstep : 0 < step := step_pos_of_n_steps_pos (le_trans hi1 hi2)
  have : (0 : ℚ) < (i : ℚ) := by exact_mod_cast Nat.lt_of_lt_of_le Nat.zero_lt_one hi1
  positivity

lemma grid_le_one {n : ℕ} (hn : 1 ≤ n) {q : ℚ} (h : q ∈ grid (1 / (n : ℚ))) : q ≤ 1 := by
  rcases mem_grid.mp h with ⟨i, hi1, hi2, rfl⟩
  rw [n_steps_of_div n] at hi2
  have hn0 : (0 : ℚ) < (n : ℚ) := by exact_mod_cast Nat.lt_of_lt_of_le Nat.zero_lt_one hn
  have hin : ((i : ℚ)) ≤ (n : ℚ) := by exact_mod_cast hi2
  calc (i : ℚ) * (1 / (n : ℚ)) ≤ (n : ℚ) * (1 / (n : ℚ)) :=
        mul_le_mul_of_nonneg_right hin (by positivity)
    _ = 1 := by field_simp

lemma grid_sorted (step : ℚ) : (grid step).Pairwise (· > ·) := by
  rcases Nat.eq_zero_or_pos (n_steps step) with h0 | hpos
  · unfold grid
    rw [h0]
    simp
  · have hstep := step_pos_of_n_steps_pos hpos
    unfold grid
    rw [List.pairwise_iff_getElem]
    intro i j hi hj hij
    simp only [List.length_map, List.length_range] at hi hj
    simp only [List.getElem_map, List.getElem_range]
    have hlt : n_steps step - j < n_steps step - i := by omega
    have hc : ((n_steps step - j : ℕ) : ℚ) < ((n_steps step - i : ℕ) : ℚ) := by
      exact_mod_cast hlt
    exact mul_lt_mul_of_pos_right hc hstep

/-- C8: with `step` evenly dividing 1 (`step = 1/n`, `n ≥ 1`), the candidate
FDR levels swept by `compute_q` are exactly `{ i * step : 1 ≤ i ≤ n }`,
visited in strictly descending order from `1.0` down to `step` inclusive, and
the grid is generated by an integer countdown multiplied by `step`, depending
only on `step` and not on the p-value data (`grid` takes no p-values). -/
theorem grid_fixed_descending (step : ℚ) (n : ℕ) (hn : 1 ≤ n)
    (hstep : step = 1 / (n : ℚ)) :
    (∀ q : ℚ, q ∈ grid step ↔ ∃ i : ℕ, 1 ≤ i ∧ i ≤ n ∧ q = (i : ℚ) * step) ∧
    (grid step).Pairwise (· > ·) ∧
    (1 : ℚ) ∈ grid step ∧ step ∈ grid step ∧
    grid step = (List.range n).map (fun j => ((n - j : ℕ) : ℚ) * step) := by
  have hns : n_steps step = n := by rw [hstep]; exact n_steps_of_div n
  have hmem : ∀ q : ℚ, q ∈ grid step ↔ ∃ i : ℕ, 1 ≤ i ∧ i ≤ n ∧ q = (i : ℚ) * step := by
    intro q
    rw [mem_grid, hns]
  have hn0 : ((n : ℚ)) ≠ 0 := by
    exact_mod_cast Nat.pos_iff_ne_zero.mp hn
  refine ⟨hmem, grid_sorted step, ?_, ?_, ?_⟩
  · exact (hmem 1).mpr ⟨n, hn, le_refl n, by rw [hstep]; field_simp⟩
  · exact (hmem step).mpr ⟨1, le_refl 1, hn, by rw [Nat.cast_one, one_mul]⟩
  · unfold grid
    rw [hns]

/-- Witness for C8 at `n = 2`, `step = 1/2`. -/
theorem grid_fixed_descending_witness :
    (1 ≤ 2 ∧ (1 : ℚ) / 2 = 1 / ((2 : ℕ) : ℚ)) ∧
    ((∀ q : ℚ, q ∈ grid (1 / 2) ↔ ∃ i : ℕ, 1 ≤ i ∧ i ≤ 2 ∧ q = (i : ℚ) * (1 / 2)) ∧
      (grid ((1 : ℚ) / 2)).Pairwise (· > ·) ∧
      (1 : ℚ) ∈ grid (1 / 2) ∧ (1 : ℚ) / 2 ∈ grid (1 / 2) ∧
      grid ((1 : ℚ) / 2) = (List.range 2).map (fun j => ((2 - j : ℕ) : ℚ) * (1 / 2))) :=
  ⟨⟨by norm_num, by norm_num⟩, grid_fixed_descending (1 / 2) 2 (by norm_num) (by norm_num)⟩

/-! ## Validation and the shape of `compute_q`'s result -/

lemma validate_ok_iff (ps : List ℚ) :
    validate ps = .ok () ↔ ps ≠ [] ∧ ∀ p ∈ ps, 0 ≤ p ∧ p ≤ 1 := by
  unfold validate
  split_ifs with h1 h2
  · constructor
    · intro h
      exact h.elim
    · intro h
      exact absurd (List.length_eq_zero.mp h1) h.1
  · constructor
    · intro _
      refine ⟨fun hnil => h1 (by simp [hnil]), ?_⟩
      intro p hp
      have := List.all_eq_true.mp h2 p hp
      simp only [Bool.and_eq_true, decide_eq_true_eq] at this
      exact this
    · intro _
      rfl
  · constructor
    · intro h
      exact h.elim
    · rintro ⟨hne, hall⟩
      exfalso
      apply h2
      rw [List.all_eq_true]
      intro p hp
      simp only [Bool.and_eq_true, decide_eq_true_eq]
      exact hall p hp

lemma validate_cases (ps : List ℚ) :
    validate ps = .ok () ∨ ∃ e, validate ps = .error e := by
  unfold validate
  split_ifs
  · exact Or.inr ⟨_, rfl⟩
  · exact Or.inl rfl
  · exact Or.inr ⟨_, rfl⟩

lemma compute_q_of_validate (ps : List ℚ) (step : ℚ) (h : validate ps = .ok ()) :
    compute_q ps step = .ok ((List.range ps.length).map
      (fun i => (bky06_final ps step).getD ((argsort ps).indexOf i) 0)) := by
  unfold compute_q
  rw [h]
  rfl

lemma compute_q_of_validate_error (ps : List ℚ) (step : ℚ) (e : String)
    (h : validate ps = .error e) : compute_q ps step = .error e := by
  unfold compute_q
  rw [h]
  rfl

lemma compute_q_ok_length (pvals : List ℚ) (step : ℚ) :
    ∀ qs, compute_q pvals step = .ok qs → qs.length = pvals.length := by
  intro qs h
  rcases validate_cases pvals with hv | ⟨e, hv⟩
  · rw [compute_q_of_validate pvals step hv] at h
    have := (Except.ok.injEq _ _).mp h
    rw [← this, List.length_map, List.length_range]
  · rw [compute_q_of_validate_error pvals step e hv] at h
    exact Except.noConfusion h

/-- C3: `compute_q` fails exactly on invalid input — the empty list or an
element outside `[0, 1]` (NaN has no rational counterpart) — and a passing
validation guarantees an `ok` result carrying a complete vector, one entry
per input position.  Failure yields a bare `error`, with no partial result. -/
theorem compute_q_error_characterization (pvals : List ℚ) (step : ℚ) :
    ((∃ qs, compute_q pvals step = .ok qs) ↔
      pvals ≠ [] ∧ ∀ p ∈ pvals, 0 ≤ p ∧ p ≤ 1) ∧
    (∀ qs, compute_q pvals step = .ok qs → qs.length = pvals.length) := by
  refine ⟨⟨?_, ?_⟩, compute_q_ok_length pvals step⟩
  · rintro ⟨qs, h⟩
    rcases validate_cases pvals with hv | ⟨e, hv⟩
    · exact (validate_ok_iff pvals).mp hv
    · rw [compute_q_of_validate_error pvals step e hv] at h
      exact Except.noConfusion h
  · intro h
    exact ⟨_, compute_q_of_validate pvals step ((validate_ok_iff pvals).mpr h)⟩

/-- Witness for C3 at `pvals = [1/2]`, `step = 1/1000`. -/
theorem compute_q_error_characterization_witness :
    ((∃ qs, compute_q [(1 : ℚ) / 2] (1 / 1000) = .ok qs) ↔
      [(1 : ℚ) / 2] ≠ [] ∧ ∀ p ∈ [(1 : ℚ) / 2], 0 ≤ p ∧ p ≤ 1) ∧
    (∀ qs, compute_q [(1 : ℚ) / 2] (1 / 1000) = .ok qs → qs.length = [(1 : ℚ) / 2].length) :=
  compute_q_error_characterization [(1 : ℚ) / 2] (1 / 1000)

/-! ## The stable argsort and the sorted view -/

lemma argsort_perm (pvals : List ℚ) : (argsort pvals).Perm (List.range pvals.length) :=
  List.perm_insertionSort _ _

lemma argsort_length (pvals : List ℚ) : (argsort pvals).length = pvals.length := by
  rw [(argsort_perm pvals).length_eq, List.length_range]

lemma mem_argsort {pvals : List ℚ} {k : ℕ} : k ∈ argsort pvals ↔ k < pvals.length := by
  rw [(argsort_perm pvals).mem_iff, List.mem_range]

lemma argsort_nodup (pvals : List ℚ) : (argsort pvals).Nodup :=
  (List.nodup_range _).perm (argsort_perm pvals).symm

lemma argsort_pairwise (pvals : List ℚ) : (argsort pvals).Pairwise (argsortRel pvals) :=
  List.sorted_insertionSort _ _

lemma getD_eq_getElem_of_lt {α : Type} (l : List α) (d : α) {k : ℕ} (h : k < l.length) :
    l.getD k d = l[k] := by
  rw [List.getD_eq_getElem?_getD, List.getElem?_eq_getElem h]
  rfl

lemma getD_mem_of_lt {α : Type} (l : List α) (d : α) {k : ℕ} (h : k < l.length) :
    l.getD k d ∈ l := by
  rw [getD_eq_getElem_of_lt l d h]
  exact List.getElem_mem h

lemma argsort_getD_lt (pvals : List ℚ) {k : ℕ} (h : k < (argsort pvals).length) :
    (argsort pvals).getD k 0 < pvals.length := by
  exact mem_argsort.mp (getD_mem_of_lt _ 0 h)

lemma gatherSorted_length (pvals : List ℚ) :
    (gatherSorted pvals).length = pvals.length := by
  unfold gatherSorted
  rw [List.length_map, argsort_length]

lemma gatherSorted_getD (pvals : List ℚ) {k : ℕ} (h : k < pvals.length) :
    (gatherSorted pvals).getD k 0 = pvals.getD ((argsort pvals).getD k 0) 0 := by
  have h1 : k < (argsort pvals).length := by
    rw [argsort_length]
    exact h
  have h2 : k < ((argsort pvals).map (fun t => pvals.getD t 0)).length := by
    rw [List.length_map]
    exact h1
  unfold gatherSorted
  rw [getD_eq_getElem_of_lt _ _ h2, List.getElem_map, getD_eq_getElem_of_lt _ _ h1]

lemma indexOf_argsort_lt (pvals : List ℚ) {i : ℕ} (h : i < pvals.length) :
    (argsort pvals).indexOf i < (argsort pvals).length :=
  List.indexOf_lt_length.mpr (mem_argsort.mpr h)

lemma argsort_getD_indexOf (pvals : List ℚ) {i : ℕ} (h : i < pvals.length) :
    (argsort pvals).getD ((argsort pvals).indexOf i) 0 = i := by
  have hlt := indexOf_argsort_lt pvals h
  rw [getD_eq_getElem_of_lt _ _ hlt]
  exact List.getElem_indexOf hlt

lemma indexOf_argsort_getD (pvals : List ℚ) {k : ℕ} (h : k < (argsort pvals).length) :
    (argsort pvals).indexOf ((argsort pvals).getD k 0) = k := by
  rw [getD_eq_getElem_of_lt _ _ h]
  exact List.indexOf_getElem (argsort_nodup pvals) k h

lemma gatherSorted_getD_indexOf (pvals : List ℚ) {i : ℕ} (h : i < pvals.length) :
    (gatherSorted pvals).getD ((argsort pvals).indexOf i) 0 = pvals.getD i 0 := by
  have hlt := indexOf_argsort_lt pvals h
  have hlt2 : (argsort pvals).indexOf i < pvals.length := by
    rw [← argsort_length pvals]
    exact hlt
  rw [gatherSorted_getD pvals hlt2, argsort_getD_indexOf pvals h]

lemma gatherSorted_sorted (pvals : List ℚ) :
    (gatherSorted pvals).Pairwise (· ≤ ·) := by
  unfold gatherSorted
  refine List.Pairwise.map _ ?_ (argsort_pairwise pvals)
  intro a b hab
  rcases hab with hab | ⟨hab, _⟩
  · exact le_of_lt hab
  · exact le_of_eq hab

lemma mem_gatherSorted {pvals : List ℚ} {x : ℚ} (h : x ∈ gatherSorted pvals) :
    x ∈ pvals := by
  unfold gatherSorted at h
  rcases List.mem_map.mp h with ⟨k, hk, rfl⟩
  have hk2 : k < pvals.length := mem_argsort.mp hk
  exact getD_mem_of_lt pvals 0 hk2

/-! ## The BH rejection counter -/

lemma bh_fold_aux (l : List ℚ) (alpha : ℚ) (k : ℕ) :
    (List.range k).foldl
        (fun total_rejected r =>
          if l.getD r 0 ≤ alpha * ((r + 1 : ℕ) : ℚ) / (l.length : ℚ) then r + 1
          else total_rejected) 0 ≤ k ∧
    ((List.range k).foldl
        (fun total_rejected r =>
          if l.getD r 0 ≤ alpha * ((r + 1 : ℕ) : ℚ) / (l.length : ℚ) then r + 1
          else total_rejected) 0 = 0 ∨
      (1 ≤ (List.range k).foldl
        (fun total_rejected r =>
          if l.getD r 0 ≤ alpha * ((r + 1 : ℕ) : ℚ) / (l.length : ℚ) then r + 1
          else total_rejected) 0 ∧
        bh_sat l alpha ((List.range k).foldl
        (fun total_rejected r =>
          if l.getD r 0 ≤ alpha * ((r + 1 : ℕ) : ℚ) / (l.length : ℚ) then r + 1
          else total_rejected) 0))) ∧
    (∀ r : ℕ, 1 ≤ r → r ≤ k → bh_sat l alpha r →
      r ≤ (List.range k).foldl
        (fun total_rejected r =>
          if l.getD r 0 ≤ alpha * ((r + 1 : ℕ) : ℚ) / (l.length : ℚ) then r + 1
          else total_rejected) 0) := by
  induction k with
  | zero =>
    refine ⟨le_refl 0, Or.inl rfl, ?_⟩
    intro r h1 h0 _
    omega
  | succ k ih =>
    obtain ⟨ihb, ihsat, ihmax⟩ := ih
    rw [List.range_succ, List.foldl_append, List.foldl_cons, List.foldl_nil]
    by_cases h : l.getD k 0 ≤ alpha * ((k + 1 : ℕ) : ℚ) / (l.length : ℚ)
    · rw [if_pos h]
      refine ⟨le_refl _, Or.inr ⟨by omega, ?_⟩, ?_⟩
      · show l.getD (k + 1 - 1) 0 ≤ alpha * ((k + 1 : ℕ) : ℚ) / (l.length : ℚ)
        simpa using h
      · intro r _ hr _
        omega
    · rw [if_neg h]
      refine ⟨by omega, ihsat, ?_⟩
      intro r h1 hr hsat
      rcases Nat.lt_or_ge r (k + 1) with hrk | hrk
      · exact ihmax r h1 (by omega) hsat
      · exfalso
        have hreq : r = k + 1 := by omega
        subst hreq
        apply h
        have := hsat
        unfold bh_sat at this
        simpa using this

lemma bh_num_rejections_eq_fold (l : List ℚ) (alpha : ℚ) :
    bh_num_rejections l alpha = (List.range l.length).foldl
        (fun total_rejected r =>
          if l.getD r 0 ≤ alpha * ((r + 1 : ℕ) : ℚ) / (l.length : ℚ) then r + 1
          else total_rejected) 0 := rfl

lemma bh_le_length (l : List ℚ) (alpha : ℚ) : bh_num_rejections l alpha ≤ l.length := by
  rw [bh_num_rejections_eq_fold]
  exact (bh_fold_aux l alpha l.length).1

lemma bh_sat_self (l : List ℚ) (alpha : ℚ) (h : 1 ≤ bh_num_rejections l alpha) :
    bh_sat l alpha (bh_num_rejections l alpha) := by
  rcases (bh_fold_aux l alpha l.length).2.1 with h0 | ⟨_, hs⟩
  · rw [bh_num_rejections_eq_fold] at h
    omega
  · rw [bh_num_rejections_eq_fold]
    exact hs

lemma bh_max (l : List ℚ) (alpha : ℚ) {r : ℕ} (h1 : 1 ≤ r) (h2 : r ≤ l.length)
    (hsat : bh_sat l alpha r) : r ≤ bh_num_rejections l alpha := by
  rw [bh_num_rejections_eq_fold]
  exact (bh_fold_aux l alpha l.length).2.2 r h1 h2 hsat

/-- C2: `bh_num_rejections` on an ascending `m ≥ 1`-element list and a level
`alpha ≥ 0` (possibly above 1) returns the largest rank `R`, `1 ≤ R ≤ m`,
whose p-value satisfies `p_(R) ≤ alpha * R / m`, with every rank `1..m`
considered, and returns `0` exactly when no rank satisfies the inequality. -/
theorem bh_num_rejections_correct (l : List ℚ) (alpha : ℚ)
    (hm : 1 ≤ l.length) (hsorted : l.Pairwise (· ≤ ·)) (halpha : 0 ≤ alpha) :
    bh_num_rejections l alpha ≤ l.length ∧
    (1 ≤ bh_num_rejections l alpha → bh_sat l alpha (bh_num_rejections l alpha)) ∧
    (∀ r : ℕ, 1 ≤ r → r ≤ l.length → bh_sat l alpha r →
      r ≤ bh_num_rejections l alpha) ∧
    (bh_num_rejections l alpha = 0 ↔ ∀ r : ℕ, 1 ≤ r → r ≤ l.length → ¬ bh_sat l alpha r) := by
  refine ⟨bh_le_length l alpha, bh_sat_self l alpha, fun r a b c => bh_max l alpha a b c, ?_, ?_⟩
  · intro h0 r hr1 hr2 hsat
    have := bh_max l alpha hr1 hr2 hsat
    omega
  · intro hnone
    by_contra hne
    have h1 : 1 ≤ bh_num_rejections l alpha := by omega
    exact hnone _ h1 (bh_le_length l alpha) (bh_sat_self l alpha h1)

/-- Witness for C2 at `l = [1/4, 1/2]`, `alpha = 1/2`. -/
theorem bh_num_rejections_correct_witness :
    (1 ≤ ([(1 : ℚ) / 4, 1 / 2]).length ∧ ([(1 : ℚ) / 4, 1 / 2]).Pairwise (· ≤ ·) ∧
      (0 : ℚ) ≤ 1 / 2) ∧
    (bh_num_rejections [(1 : ℚ) / 4, 1 / 2] (1 / 2) ≤ ([(1 : ℚ) / 4, 1 / 2]).length ∧
      (1 ≤ bh_num_rejections [(1 : ℚ) / 4, 1 / 2] (1 / 2) →
        bh_sat [(1 : ℚ) / 4, 1 / 2] (1 / 2) (bh_num_rejections [(1 : ℚ) / 4, 1 / 2] (1 / 2))) ∧
      (∀ r : ℕ, 1 ≤ r → r ≤ ([(1 : ℚ) / 4, 1 / 2]).length →
        bh_sat [(1 : ℚ) / 4, 1 / 2] (1 / 2) r →
        r ≤ bh_num_rejections [(1 : ℚ) / 4, 1 / 2] (1 / 2)) ∧
      (bh_num_rejections [(1 : ℚ) / 4, 1 / 2] (1 / 2) = 0 ↔
        ∀ r : ℕ, 1 ≤ r → r ≤ ([(1 : ℚ) / 4, 1 / 2]).length →
          ¬ bh_sat [(1 : ℚ) / 4, 1 / 2] (1 / 2) r)) :=
  ⟨⟨by decide!, by decide!, by decide!⟩,
    bh_num_rejections_correct [(1 : ℚ) / 4, 1 / 2] (1 / 2)
      (by decide!) (by decide!) (by decide!)⟩

/-! ## The update loop and the sweep fold -/

lemma update_bky_length (q : ℚ) : ∀ (r : ℕ) (b : List ℚ),
    (update_bky q r b).length = b.length := by
  intro r b
  induction b generalizing r with
  | nil => cases r <;> rfl
  | cons x xs ih =>
    cases r with
    | zero => rfl
    | succ r =>
      simp only [update_bky, List.length_cons]
      rw [ih r]

lemma update_bky_getD (q : ℚ) : ∀ (r : ℕ) (b : List ℚ) (k : ℕ), k < b.length →
    (update_bky q r b).getD k 0 =
      if k < r ∧ q < b.getD k 0 then q else b.getD k 0 := by
  intro r b
  induction b generalizing r with
  | nil =>
    intro k hk
    simp at hk
  | cons x xs ih =>
    intro k hk
    cases r with
    | zero =>
      have : ¬ (k < 0 ∧ q < (x :: xs).getD k 0) := by
        rintro ⟨h0, -⟩
        omega
      rw [if_neg this]
      rfl
    | succ r =>
      cases k with
      | zero =>
        simp only [update_bky, List.getD_cons_zero]
        by_cases hq : q < x
        · rw [if_pos hq, if_pos ⟨Nat.succ_pos r, hq⟩]
        · rw [if_neg hq, if_neg (fun hc => hq hc.2)]
      | succ k =>
        simp only [update_bky, List.getD_cons_succ]
        rw [ih r k (by simpa using hk)]
        by_cases hc : k < r ∧ q < xs.getD k 0
        · rw [if_pos hc, if_pos ⟨by omega, hc.2⟩]
        · rw [if_neg hc, if_neg (fun hc2 => hc ⟨by omega, hc2.2⟩)]

lemma sweep_step_length (s b : List ℚ) (qv : ℚ) :
    (sweep_step s b qv).length = b.length :=
  update_bky_length qv _ b

lemma foldl_sweep_length (s : List ℚ) (L : List ℚ) (b : List ℚ) :
    (L.foldl (sweep_step s) b).length = b.length := by
  induction L generalizing b with
  | nil => rfl
  | cons q L ih =>
    rw [List.foldl_cons, ih, sweep_step_length]

lemma foldl_sweep_getD (s : List ℚ) (L : List ℚ) (b : List ℚ) {k : ℕ}
    (hk : k < b.length) :
    (L.foldl (sweep_step s) b).getD k 0 =
      L.foldl (fun c q => if k < stage2_count s q ∧ q < c then q else c) (b.getD k 0) := by
  induction L generalizing b with
  | nil => rfl
  | cons q L ih =>
    simp only [List.foldl_cons]
    rw [ih (sweep_step s b q) (by rw [sweep_step_length]; exact hk)]
    congr 1
    exact update_bky_getD q _ b k hk

lemma bky06_final_length (pvals : List ℚ) (step : ℚ) :
    (bky06_final pvals step).length = pvals.length := by
  unfold bky06_final
  rw [foldl_sweep_length, List.length_replicate]

lemma bky06_final_getD (pvals : List ℚ) (step : ℚ) {k : ℕ} (hk : k < pvals.length) :
    (bky06_final pvals step).getD k 0 =
      (grid step).foldl
        (fun c q => if k < stage2_count (gatherSorted pvals) q ∧ q < c then q else c) 1 := by
  unfold bky06_final
  have hrep : k < (List.replicate pvals.length (1 : ℚ)).length := by
    rw [List.length_replicate]
    exact hk
  rw [foldl_sweep_getD _ _ _ hrep]
  congr 1
  rw [getD_eq_getElem_of_lt _ _ hrep, List.getElem_replicate]

lemma compute_q_out_getD (pvals : List ℚ) (step : ℚ) (qs : List ℚ)
    (h : compute_q pvals step = .ok qs) {i : ℕ} (hi : i < pvals.length) :
    qs.getD i 0 = (bky06_final pvals step).getD ((argsort pvals).indexOf i) 0 := by
  rcases validate_cases pvals with hv | ⟨e, hv⟩
  · rw [compute_q_of_validate pvals step hv] at h
    have hqs := (Except.ok.injEq _ _).mp h
    subst hqs
    have hlen : i < ((List.range pvals.length).map
        (fun i => (bky06_final pvals step).getD ((argsort pvals).indexOf i) 0)).length := by
      rw [List.length_map, List.length_range]
      exact hi
    rw [getD_eq_getElem_of_lt _ _ hlen, List.getElem_map, List.getElem_range]
  · rw [compute_q_of_validate_error pvals step e hv] at h
    exact Except.noConfusion h

/-! ## The scalar minimum fold -/

lemma minFold_le_init (P : ℕ → ℚ → Prop) [∀ k q, Decidable (P k q)] (k : ℕ)
    (L : List ℚ) (c0 : ℚ) :
    L.foldl (fun c q => if P k q ∧ q < c then q else c) c0 ≤ c0 := by
  induction L generalizing c0 with
  | nil => exact le_refl c0
  | cons q L ih =>
    simp only [List.foldl_cons]
    by_cases h : P k q ∧ q < c0
    · rw [if_pos h]
      exact le_trans (ih q) (le_of_lt h.2)
    · rw [if_neg h]
      exact ih c0

lemma minFold_mem_or_init (P : ℕ → ℚ → Prop) [∀ k q, Decidable (P k q)] (k : ℕ)
    (L : List ℚ) (c0 : ℚ) :
    L.foldl (fun c q => if P k q ∧ q < c then q else c) c0 = c0 ∨
      (L.foldl (fun c q => if P k q ∧ q < c then q else c) c0 ∈ L ∧
        P k (L.foldl (fun c q => if P k q ∧ q < c then q else c) c0)) := by
  induction L generalizing c0 with
  | nil => exact Or.inl rfl
  | cons q L ih =>
    simp only [List.foldl_cons]
    by_cases h : P k q ∧ q < c0
    · rw [if_pos h]
      rcases ih q with h0 | ⟨hm, hP⟩
      · exact Or.inr ⟨by rw [h0]; exact List.mem_cons_self q L, by rw [h0]; exact h.1⟩
      · exact Or.inr ⟨List.mem_cons_of_mem q hm, hP⟩
    · rw [if_neg h]
      rcases ih c0 with h0 | ⟨hm, hP⟩
      · exact Or.inl h0
      · exact Or.inr ⟨List.mem_cons_of_mem q hm, hP⟩

lemma minFold_le_of_mem (P : ℕ → ℚ → Prop) [∀ k q, Decidable (P k q)] (k : ℕ)
    (L : List ℚ) (c0 : ℚ) {q : ℚ} (hq : q ∈ L) (hP : P k q) :
    L.foldl (fun c q => if P k q ∧ q < c then q else c) c0 ≤ q := by
  induction L generalizing c0 with
  | nil => exact absurd hq (List.not_mem_nil q)
  | cons x L ih =>
    simp only [List.foldl_cons]
    rcases List.mem_cons.mp hq with rfl | hq2
    · by_cases h : P k q ∧ q < c0
      · rw [if_pos h]
        exact minFold_le_init P k L q
      · rw [if_neg h]
        have : c0 ≤ q := by
          by_contra hlt
          exact h ⟨hP, by linarith⟩
        exact le_trans (minFold_le_init P k L c0) this
    · by_cases h : P k x ∧ x < c0
      · rw [if_pos h]
        exact ih x hq2
      · rw [if_neg h]
        exact ih c0 hq2

lemma minFold_congr (P Q : ℕ → ℚ → Prop) [∀ k q, Decidable (P k q)]
    [∀ k q, Decidable (Q k q)] (k k' : ℕ) (L : List ℚ)
    (h : ∀ q ∈ L, P k q ↔ Q k' q) (c0 : ℚ) :
    L.foldl (fun c q => if P k q ∧ q < c then q else c) c0 =
      L.foldl (fun c q => if Q k' q ∧ q < c then q else c) c0 := by
  induction L generalizing c0 with
  | nil => rfl
  | cons x L ih =>
    simp only [List.foldl_cons]
    have hx := h x (List.mem_cons_self x L)
    have hrest : ∀ q ∈ L, P k q ↔ Q k' q := fun q hq => h q (List.mem_cons_of_mem x hq)
    by_cases hc : P k x ∧ x < c0
    · rw [if_pos hc, if_pos ⟨hx.mp hc.1, hc.2⟩]
      exact ih hrest x
    · rw [if_neg hc, if_neg (fun hc2 => hc ⟨hx.mpr hc2.1, hc2.2⟩)]
      exact ih hrest c0

lemma minFold_mono (P Q : ℕ → ℚ → Prop) [∀ k q, Decidable (P k q)]
    [∀ k q, Decidable (Q k q)] (k k' : ℕ) (L : List ℚ)
    (h : ∀ q ∈ L, Q k' q → P k q) (c0 : ℚ) :
    L.foldl (fun c q => if P k q ∧ q < c then q else c) c0 ≤
      L.foldl (fun c q => if Q k' q ∧ q < c then q else c) c0 := by
  rcases minFold_mem_or_init Q k' L c0 with h0 | ⟨hm, hQ⟩
  · rw [h0]
    exact minFold_le_init P k L c0
  · exact minFold_le_of_mem P k L c0 hm (h _ hm hQ)

/-! ## Ties and monotonicity in the BH counts -/

lemma pairwise_le_getD (l : List ℚ) (h : l.Pairwise (· ≤ ·)) {a b : ℕ}
    (hab : a ≤ b) (hb : b < l.length) : l.getD a 0 ≤ l.getD b 0 := by
  rcases Nat.eq_or_lt_of_le hab with rfl | hlt
  · exact le_refl _
  · have ha : a < l.length := lt_trans hlt hb
    rw [getD_eq_getElem_of_lt _ _ ha, getD_eq_getElem_of_lt _ _ hb]
    exact List.pairwise_iff_getElem.mp h a b ha hb hlt

lemma bh_tie (l : List ℚ) (alpha : ℚ) (hsorted : l.Pairwise (· ≤ ·))
    (halpha : 0 ≤ alpha) {a b : ℕ} (hab : a < b) (hb : b < l.length)
    (heq : l.getD a 0 = l.getD b 0)
    (ha : a < bh_num_rejections l alpha) : b < bh_num_rejections l alpha := by
  by_contra hble
  push_neg at hble
  have hR1 : 1 ≤ bh_num_rejections l alpha := by omega
  have hsat := bh_sat_self l alpha hR1
  have hRlen : bh_num_rejections l alpha - 1 < l.length := by
    have := bh_le_length l alpha
    omega
  have h1 : l.getD a 0 ≤ l.getD (bh_num_rejections l alpha - 1) 0 :=
    pairwise_le_getD l hsorted (by omega) hRlen
  have h2 : l.getD (bh_num_rejections l alpha - 1) 0 ≤ l.getD b 0 :=
    pairwise_le_getD l hsorted (by omega) hb
  have heqR : l.getD (bh_num_rejections l alpha - 1) 0 = l.getD b 0 :=
    le_antisymm h2 (heq ▸ h1)
  have hsatb : bh_sat l alpha (b + 1) := by
    unfold bh_sat at hsat ⊢
    have hm : (0 : ℚ) < (l.length : ℚ) := by
      have : 0 < l.length := by omega
      exact_mod_cast this
    have hcast : ((bh_num_rejections l alpha : ℕ) : ℚ) ≤ ((b + 1 : ℕ) : ℚ) := by
      exact_mod_cast (by omega : bh_num_rejections l alpha ≤ b + 1)
    have hmul : alpha * ((bh_num_rejections l alpha : ℕ) : ℚ) ≤
        alpha * ((b + 1 : ℕ) : ℚ) := mul_le_mul_of_nonneg_left hcast halpha
    calc l.getD (b + 1 - 1) 0 = l.getD (bh_num_rejections l alpha - 1) 0 := by
          simpa using heqR.symm
      _ ≤ alpha * ((bh_num_rejections l alpha : ℕ) : ℚ) / (l.length : ℚ) := hsat
      _ ≤ alpha * ((b + 1 : ℕ) : ℚ) / (l.length : ℚ) := by
          exact div_le_div_of_nonneg_right hmul hm.le
  have := bh_max l alpha (by omega) (by omega) hsatb
  omega

lemma stage2_count_le (s : List ℚ) (qv : ℚ) : stage2_count s qv ≤ s.length := by
  unfold stage2_count
  split_ifs
  · exact le_refl _
  · exact bh_le_length _ _

lemma stage2_tie (s : List ℚ) (hsorted : s.Pairwise (· ≤ ·)) {qv : ℚ} (hq : 0 < qv)
    {a b : ℕ} (hab : a < b) (hb : b < s.length) (heq : s.getD a 0 = s.getD b 0)
    (ha : a < stage2_count s qv) : b < stage2_count s qv := by
  have hqadj : 0 ≤ qv / (1 + qv) := by positivity
  unfold stage2_count at ha ⊢
  split_ifs at ha ⊢ with h
  · exact hb
  · have hr1 := bh_le_length s (qv / (1 + qv))
    have hr1lt : bh_num_rejections s (qv / (1 + qv)) < s.length := lt_of_le_of_ne hr1 h
    have hcast : ((bh_num_rejections s (qv / (1 + qv)) : ℕ) : ℚ) < (s.length : ℚ) := by
      exact_mod_cast hr1lt
    have halpha2 : 0 ≤ qv / (1 + qv) *
        ((s.length : ℚ) / ((s.length : ℚ) - (bh_num_rejections s (qv / (1 + qv)) : ℚ))) := by
      apply mul_nonneg hqadj
      apply div_nonneg (Nat.cast_nonneg _)
      linarith
    exact bh_tie s _ hsorted halpha2 hab hb heq ha

lemma stage2_tie_iff (s : List ℚ) (hsorted : s.Pairwise (· ≤ ·)) {qv : ℚ}
    (hq : 0 < qv) {a b : ℕ} (ha : a < s.length) (hb : b < s.length)
    (heq : s.getD a 0 = s.getD b 0) :
    (a < stage2_count s qv ↔ b < stage2_count s qv) := by
  rcases lt_trichotomy a b with hlt | rfl | hlt
  · exact ⟨fun hc => stage2_tie s hsorted hq hlt hb heq hc, fun hc => by omega⟩
  · exact Iff.rfl
  · exact ⟨fun hc => by omega, fun hc => stage2_tie s hsorted hq hlt ha heq.symm hc⟩

/-! ## The per-hypothesis output as a minimum over grid levels -/

lemma compute_q_out_minFold (pvals : List ℚ) (step : ℚ) (qs : List ℚ)
    (h : compute_q pvals step = .ok qs) {i : ℕ} (hi : i < pvals.length) :
    qs.getD i 0 = (grid step).foldl
      (fun c q =>
        if (argsort pvals).indexOf i < stage2_count (gatherSorted pvals) q ∧ q < c then q
        else c) 1 := by
  have hki : (argsort pvals).indexOf i < pvals.length := by
    rw [← argsort_length pvals]
    exact indexOf_argsort_lt pvals hi
  rw [compute_q_out_getD pvals step qs h hi, bky06_final_getD pvals step hki]

lemma eq_ok_of_toOption {e a : Type} (x : Except e a) (v : a)
    (h : x.toOption = some v) : x = .ok v := by
  cases x with
  | error err => simp [Except.toOption] at h
  | ok b =>
    simp only [Except.toOption, Option.some.injEq] at h
    rw [h]

lemma compute_q_ties_aux (pvals : List ℚ) (step : ℚ) (qs : List ℚ)
    (h : compute_q pvals step = .ok qs) (i j : ℕ) (hi : i < pvals.length)
    (hj : j < pvals.length) (heq : pvals.getD i 0 = pvals.getD j 0) :
    qs.getD i 0 = qs.getD j 0 := by
  have hki : (argsort pvals).indexOf i < pvals.length := by
    rw [← argsort_length pvals]
    exact indexOf_argsort_lt pvals hi
  have hkj : (argsort pvals).indexOf j < pvals.length := by
    rw [← argsort_length pvals]
    exact indexOf_argsort_lt pvals hj
  have hki2 : (argsort pvals).indexOf i < (gatherSorted pvals).length := by
    rw [gatherSorted_length]
    exact hki
  have hkj2 : (argsort pvals).indexOf j < (gatherSorted pvals).length := by
    rw [gatherSorted_length]
    exact hkj
  have hveq : (gatherSorted pvals).getD ((argsort pvals).indexOf i) 0 =
      (gatherSorted pvals).getD ((argsort pvals).indexOf j) 0 := by
    rw [gatherSorted_getD_indexOf pvals hi, gatherSorted_getD_indexOf pvals hj]
    exact heq
  rw [compute_q_out_minFold pvals step qs h hi, compute_q_out_minFold pvals step qs h hj]
  exact minFold_congr (fun k q => k < stage2_count (gatherSorted pvals) q)
    (fun k q => k < stage2_count (gatherSorted pvals) q)
    ((argsort pvals).indexOf i) ((argsort pvals).indexOf j) (grid step)
    (fun q hq => stage2_tie_iff (gatherSorted pvals) (gatherSorted_sorted pvals)
      (grid_pos hq) hki2 hkj2 hveq) 1

/-- C7: equal p-values receive equal sharpened q-values, wherever they sit in
the input: if `compute_q` succeeds and positions `i`, `j` hold the same
p-value, the outputs at `i` and `j` coincide. -/
theorem compute_q_ties (pvals : List ℚ) (step : ℚ) (qs : List ℚ)
    (h : compute_q pvals step = .ok qs) (i j : ℕ) (hi : i < pvals.length)
    (hj : j < pvals.length) (heq : pvals.getD i 0 = pvals.getD j 0) :
    qs.getD i 0 = qs.getD j 0 :=
  compute_q_ties_aux pvals step qs h i j hi hj heq

/-- Witness for C7 at `pvals = [1/4, 1/4]`, `step = 1/2`. -/
theorem compute_q_ties_witness :
    (compute_q [(1 : ℚ) / 4, 1 / 4] (1 / 2) = .ok [1 / 2, 1 / 2] ∧
      0 < ([(1 : ℚ) / 4, 1 / 4]).length ∧ 1 < ([(1 : ℚ) / 4, 1 / 4]).length ∧
      ([(1 : ℚ) / 4, 1 / 4]).getD 0 0 = ([(1 : ℚ) / 4, 1 / 4]).getD 1 0) ∧
    ([(1 : ℚ) / 2, 1 / 2]).getD 0 0 = ([(1 : ℚ) / 2, 1 / 2]).getD 1 0 :=
  ⟨⟨eq_ok_of_toOption _ _ (by decide!), by decide!, by decide!, by decide!⟩,
    compute_q_ties [(1 : ℚ) / 4, 1 / 4] (1 / 2) [1 / 2, 1 / 2]
      (eq_ok_of_toOption _ _ (by decide!)) 0 1 (by decide!) (by decide!) (by decide!)⟩

/-- C10: sharpened q-values are monotone in the p-values: if `compute_q`
succeeds and the p-value at position `i` is at most the one at position `j`,
the output at `i` is at most the output at `j`. -/
theorem compute_q_monotone (pvals : List ℚ) (step : ℚ) (qs : List ℚ)
    (h : compute_q pvals step = .ok qs) (i j : ℕ) (hi : i < pvals.length)
    (hj : j < pvals.length) (hle : pvals.getD i 0 ≤ pvals.getD j 0) :
    qs.getD i 0 ≤ qs.getD j 0 := by
  have hki : (argsort pvals).indexOf i < pvals.length := by
    rw [← argsort_length pvals]
    exact indexOf_argsort_lt pvals hi
  rcases le_or_lt ((argsort pvals).indexOf i) ((argsort pvals).indexOf j) with hk | hk
  · rw [compute_q_out_minFold pvals step qs h hi, compute_q_out_minFold pvals step qs h hj]
    exact minFold_mono (fun k q => k < stage2_count (gatherSorted pvals) q)
      (fun k q => k < stage2_count (gatherSorted pvals) q)
      ((argsort pvals).indexOf i) ((argsort pvals).indexOf j) (grid step)
      (fun q _ hcj => by omega) 1
  · have hki2 : (argsort pvals).indexOf i < (gatherSorted pvals).length := by
      rw [gatherSorted_length]
      exact hki
    have hge : pvals.getD j 0 ≤ pvals.getD i 0 := by
      rw [← gatherSorted_getD_indexOf pvals hi, ← gatherSorted_getD_indexOf pvals hj]
      exact pairwise_le_getD _ (gatherSorted_sorted pvals) (le_of_lt hk) hki2
    exact le_of_eq (compute_q_ties_aux pvals step qs h i j hi hj (le_antisymm hle hge))

/-- Witness for C10 at `pvals = [1/2, 1/8]`, `i = 1`, `j = 0`. -/
theorem compute_q_monotone_witness :
    (compute_q [(1 : ℚ) / 2, 1 / 8] (1 / 2) = .ok [1 / 2, 1 / 2] ∧
      1 < ([(1 : ℚ) / 2, 1 / 8]).length ∧ 0 < ([(1 : ℚ) / 2, 1 / 8]).length ∧
      ([(1 : ℚ) / 2, 1 / 8]).getD 1 0 ≤ ([(1 : ℚ) / 2, 1 / 8]).getD 0 0) ∧
    ([(1 : ℚ) / 2, 1 / 2]).getD 1 0 ≤ ([(1 : ℚ) / 2, 1 / 2]).getD 0 0 :=
  ⟨⟨eq_ok_of_toOption _ _ (by decide!), by decide!, by decide!, by decide!⟩,
    compute_q_monotone [(1 : ℚ) / 2, 1 / 8] (1 / 2) [1 / 2, 1 / 2]
      (eq_ok_of_toOption _ _ (by decide!)) 1 0 (by decide!) (by decide!) (by decide!)⟩

/-- C9: with `step = 1/n` (`n ≥ 1`), every output of a successful
`compute_q` call is a grid point `k * step` with `1 ≤ k ≤ n = round(1/step)`;
in particular each output lies in `[step, 1]` — never `0`, never below
`step`, never above `1`. -/
theorem compute_q_outputs_on_grid (pvals : List ℚ) (step : ℚ) (qs : List ℚ)
    (h : compute_q pvals step = .ok qs) (n : ℕ) (hn : 1 ≤ n)
    (hstep : step = 1 / (n : ℚ)) :
    ∀ x ∈ qs, (∃ k : ℕ, 1 ≤ k ∧ k ≤ n ∧ x = (k : ℚ) * step) ∧ step ≤ x ∧ x ≤ 1 := by
  have hn0 : (0 : ℚ) < (n : ℚ) := by
    exact_mod_cast Nat.lt_of_lt_of_le Nat.zero_lt_one hn
  have hstep_pos : 0 < step := by
    rw [hstep]
    positivity
  have hone : (1 : ℚ) = (n : ℚ) * step := by
    rw [hstep]
    field_simp
  have hgrid_form : ∀ x : ℚ, x ∈ grid step → ∃ k : ℕ, 1 ≤ k ∧ k ≤ n ∧ x = (k : ℚ) * step := by
    intro x hx
    rcases mem_grid.mp hx with ⟨k, hk1, hk2, rfl⟩
    rw [hstep, n_steps_of_div n] at hk2
    exact ⟨k, hk1, hk2, rfl⟩
  have hbounds : ∀ k : ℕ, 1 ≤ k → k ≤ n → step ≤ (k : ℚ) * step ∧ (k : ℚ) * step ≤ 1 := by
    intro k hk1 hk2
    have hc1 : (1 : ℚ) ≤ (k : ℚ) := by exact_mod_cast hk1
    have hc2 : ((k : ℚ)) ≤ (n : ℚ) := by exact_mod_cast hk2
    constructor
    · calc step = 1 * step := (one_mul step).symm
        _ ≤ (k : ℚ) * step := mul_le_mul_of_nonneg_right hc1 (le_of_lt hstep_pos)
    · calc (k : ℚ) * step ≤ (n : ℚ) * step := mul_le_mul_of_nonneg_right hc2 (le_of_lt hstep_pos)
        _ = 1 := hone.symm
  intro x hx
  obtain ⟨i, hilen, hieq⟩ := List.getElem_of_mem hx
  have hlen : qs.length = pvals.length := compute_q_ok_length pvals step qs h
  have hip : i < pvals.length := by
    rw [← hlen]
    exact hilen
  have hxval : x = qs.getD i 0 := by
    rw [getD_eq_getElem_of_lt qs 0 hilen, hieq]
  rw [hxval, compute_q_out_minFold pvals step qs h hip]
  rcases minFold_mem_or_init
      (fun k q => k < stage2_count (gatherSorted pvals) q) ((argsort pvals).indexOf i)
      (grid step) 1 with h1 | ⟨hm, -⟩
  · rw [h1]
    refine ⟨⟨n, hn, le_refl n, hone⟩, ?_, le_refl 1⟩
    rw [hone]
    exact (hbounds n hn (le_refl n)).1
  · rcases hgrid_form _ hm with ⟨k, hk1, hk2, hkeq⟩
    rw [hkeq]
    exact ⟨⟨k, hk1, hk2, rfl⟩, hbounds k hk1 hk2⟩

/-- Witness for C9 at `pvals = [1/4]`, `step = 1/2`, `n = 2`. -/
theorem compute_q_outputs_on_grid_witness :
    (compute_q [(1 : ℚ) / 4] (1 / 2) = .ok [1 / 2] ∧ 1 ≤ 2 ∧
      (1 : ℚ) / 2 = 1 / ((2 : ℕ) : ℚ)) ∧
    ∀ x ∈ [(1 : ℚ) / 2],
      (∃ k : ℕ, 1 ≤ k ∧ k ≤ 2 ∧ x = (k : ℚ) * (1 / 2)) ∧ (1 : ℚ) / 2 ≤ x ∧ x ≤ 1 :=
  ⟨⟨eq_ok_of_toOption _ _ (by decide!), by decide!, by norm_num⟩,
    compute_q_outputs_on_grid [(1 : ℚ) / 4] (1 / 2) [1 / 2]
      (eq_ok_of_toOption _ _ (by decide!)) 2 (by decide!) (by norm_num)⟩

/-- C6: a successful `compute_q` returns one value per input position; the
argsort permutation is a permutation of the indices `0..m-1` (a bijection),
and the output at original position `argsort[k]` is exactly the sorted-order
sweep result at sorted position `k` — a pure reindexing that loses or
duplicates no value. -/
theorem compute_q_shape_order (pvals : List ℚ) (step : ℚ) (qs : List ℚ)
    (h : compute_q pvals step = .ok qs) :
    qs.length = pvals.length ∧
    (argsort pvals).Perm (List.range pvals.length) ∧
    ∀ k, k < pvals.length →
      qs.getD ((argsort pvals).getD k 0) 0 = (bky06_final pvals step).getD k 0 := by
  refine ⟨compute_q_ok_length pvals step qs h, argsort_perm pvals, ?_⟩
  intro k hk
  have hk2 : k < (argsort pvals).length := by
    rw [argsort_length]
    exact hk
  have hidx : (argsort pvals).getD k 0 < pvals.length := argsort_getD_lt pvals hk2
  rw [compute_q_out_getD pvals step qs h hidx, indexOf_argsort_getD pvals hk2]

/-- Witness for C6 at `pvals = [1/2, 1/8]`, `step = 1/2`. -/
theorem compute_q_shape_order_witness :
    compute_q [(1 : ℚ) / 2, 1 / 8] (1 / 2) = .ok [1 / 2, 1 / 2] ∧
    (([(1 : ℚ) / 2, 1 / 2]).length = ([(1 : ℚ) / 2, 1 / 8]).length ∧
      (argsort [(1 : ℚ) / 2, 1 / 8]).Perm (List.range ([(1 : ℚ) / 2, 1 / 8]).length) ∧
      ∀ k, k < ([(1 : ℚ) / 2, 1 / 8]).length →
        ([(1 : ℚ) / 2, 1 / 2]).getD ((argsort [(1 : ℚ) / 2, 1 / 8]).getD k 0) 0 =
          (bky06_final [(1 : ℚ) / 2, 1 / 8] (1 / 2)).getD k 0) :=
  ⟨eq_ok_of_toOption _ _ (by decide!),
    compute_q_shape_order [(1 : ℚ) / 2, 1 / 8] (1 / 2) [1 / 2, 1 / 2]
      (eq_ok_of_toOption _ _ (by decide!))⟩

/-! ## The refinement: code-side stage 2 equals the spec's capped, floored
stage 2 -/

lemma bh_of_one_le (s : List ℚ) (hm : 1 ≤ s.length)
    (hbound : ∀ x ∈ s, x ≤ 1) {alpha : ℚ} (h1 : 1 ≤ alpha) :
    bh_num_rejections s alpha = s.length := by
  apply le_antisymm (bh_le_length s alpha)
  apply bh_max s alpha hm (le_refl _)
  unfold bh_sat
  have hmq : ((s.length : ℕ) : ℚ) ≠ 0 := by
    have : (0 : ℚ) < ((s.length : ℕ) : ℚ) := by exact_mod_cast (by omega : 0 < s.length)
    exact ne_of_gt this
  rw [mul_div_assoc, div_self hmq, mul_one]
  exact le_trans (hbound _ (getD_mem_of_lt s 0 (by omega))) h1

lemma stage2_count_eq_spec (s : List ℚ) (hm : 1 ≤ s.length)
    (hbound : ∀ x ∈ s, 0 ≤ x ∧ x ≤ 1) {qv : ℚ} (hq : 0 < qv) :
    stage2_count s qv = stage2_count_spec s qv := by
  have hq1 : (0 : ℚ) < 1 + qv := by linarith
  have hqadj0 : 0 ≤ qv / (1 + qv) := by positivity
  have hqadj1 : qv / (1 + qv) < 1 := by
    rw [div_lt_one hq1]
    linarith
  have hmq : (0 : ℚ) < ((s.length : ℕ) : ℚ) := by
    exact_mod_cast (by omega : 0 < s.length)
  unfold stage2_count stage2_count_spec
  by_cases h1 : bh_num_rejections s (qv / (1 + qv)) = s.length
  · rw [if_pos h1, h1, if_neg (by omega : ¬ s.length = 0), if_pos (le_refl s.length)]
    have hsat1 : bh_sat s (qv / (1 + qv)) s.length := by
      have := bh_sat_self s (qv / (1 + qv)) (by omega)
      rwa [h1] at this
    unfold bh_sat at hsat1
    rw [mul_div_assoc, div_self (ne_of_gt hmq), mul_one] at hsat1
    symm
    apply le_antisymm (bh_le_length _ _)
    apply bh_max _ _ hm (le_refl _)
    unfold bh_sat
    rw [mul_div_assoc, div_self (ne_of_gt hmq), mul_one]
    apply le_min
    · rw [Nat.cast_one, div_one]
      calc s.getD (s.length - 1) 0 ≤ qv / (1 + qv) := hsat1
        _ = qv / (1 + qv) * 1 := (mul_one _).symm
        _ ≤ qv / (1 + qv) * (s.length : ℚ) := by
            apply mul_le_mul_of_nonneg_left _ hqadj0
            exact_mod_cast hm
    · exact (hbound _ (getD_mem_of_lt s 0 (by omega))).2
  · rw [if_neg h1]
    have hr1le := bh_le_length s (qv / (1 + qv))
    by_cases h0 : bh_num_rejections s (qv / (1 + qv)) = 0
    · rw [if_pos h0, h0]
      rw [Nat.cast_zero, sub_zero, div_self (ne_of_gt hmq), mul_one]
      congr 1
      rw [min_eq_left (le_of_lt hqadj1)]
    · rw [if_neg h0, if_neg (by omega : ¬ s.length ≤ bh_num_rejections s (qv / (1 + qv)))]
      have hcast : ((s.length - bh_num_rejections s (qv / (1 + qv)) : ℕ) : ℚ) =
          ((s.length : ℕ) : ℚ) - ((bh_num_rejections s (qv / (1 + qv)) : ℕ) : ℚ) := by
        push_cast [Nat.cast_sub (by omega : bh_num_rejections s (qv / (1 + qv)) ≤ s.length)]
        ring
      rw [hcast]
      rcases le_or_lt (qv / (1 + qv) *
          ((s.length : ℚ) /
            ((s.length : ℚ) - (bh_num_rejections s (qv / (1 + qv)) : ℚ)))) 1 with hle | hgt
      · rw [min_eq_left hle]
      · rw [min_eq_right (le_of_lt hgt)]
        rw [bh_of_one_le s hm (fun x hx => (hbound x hx).2) (le_of_lt hgt),
          bh_of_one_le s hm (fun x hx => (hbound x hx).2) (le_refl 1)]

lemma bky06_final_eq_spec (pvals : List ℚ) (step : ℚ) (hm : 1 ≤ pvals.length)
    (hbound : ∀ p ∈ pvals, 0 ≤ p ∧ p ≤ 1) :
    bky06_final pvals step = bky06_final_spec pvals step := by
  have hslen : 1 ≤ (gatherSorted pvals).length := by
    rw [gatherSorted_length]
    exact hm
  have hsbound : ∀ x ∈ gatherSorted pvals, 0 ≤ x ∧ x ≤ 1 :=
    fun x hx => hbound x (mem_gatherSorted hx)
  unfold bky06_final bky06_final_spec
  have hgen : ∀ (L : List ℚ), (∀ q ∈ L, 0 < q) → ∀ b : List ℚ,
      L.foldl (sweep_step (gatherSorted pvals)) b =
        L.foldl
          (fun bky qval => update_bky qval (stage2_count_spec (gatherSorted pvals) qval) bky)
          b := by
    intro L
    induction L with
    | nil =>
      intro _ b
      rfl
    | cons q L ih =>
      intro hpos b
      simp only [List.foldl_cons]
      rw [show sweep_step (gatherSorted pvals) b q =
          update_bky q (stage2_count_spec (gatherSorted pvals) q) b from ?_]
      · exact ih (fun x hx => hpos x (List.mem_cons_of_mem q hx)) _
      · unfold sweep_step
        rw [stage2_count_eq_spec (gatherSorted pvals) hslen hsbound
          (hpos q (List.mem_cons_self q L))]
  exact hgen (grid step) (fun q hq => grid_pos hq) _

/-- C1: on valid input with a unit-fraction step, the code's per-level
shortcut (`total_rejected2 = m` without a second BH pass when stage 1
rejects everything, uncapped stage-2 level otherwise) computes exactly the
spec's capped, floored per-level count at every grid level, and the whole
of `compute_q` equals the spec's formulation `compute_q_spec`. -/
theorem compute_q_refines_spec (pvals : List ℚ) (step : ℚ) (n : ℕ) (hn : 1 ≤ n)
    (hstep : step = 1 / (n : ℚ)) (hne : pvals ≠ [])
    (hbound : ∀ p ∈ pvals, 0 ≤ p ∧ p ≤ 1) :
    (∀ qv ∈ grid step,
      stage2_count (gatherSorted pvals) qv = stage2_count_spec (gatherSorted pvals) qv) ∧
    compute_q pvals step = compute_q_spec pvals step := by
  have hm : 1 ≤ pvals.length := by
    rcases pvals with - | ⟨x, xs⟩
    · exact absurd rfl hne
    · simp
  have hslen : 1 ≤ (gatherSorted pvals).length := by
    rw [gatherSorted_length]
    exact hm
  have hsbound : ∀ x ∈ gatherSorted pvals, 0 ≤ x ∧ x ≤ 1 :=
    fun x hx => hbound x (mem_gatherSorted hx)
  constructor
  · intro qv hqv
    exact stage2_count_eq_spec (gatherSorted pvals) hslen hsbound (grid_pos hqv)
  · unfold compute_q compute_q_spec
    rw [bky06_final_eq_spec pvals step hm hbound]

/-- Witness for C1 at `pvals = [1/4, 1/2]`, `step = 1/2`, `n = 2`. -/
theorem compute_q_refines_spec_witness :
    (1 ≤ 2 ∧ (1 : ℚ) / 2 = 1 / ((2 : ℕ) : ℚ) ∧ [(1 : ℚ) / 4, 1 / 2] ≠ [] ∧
      ∀ p ∈ [(1 : ℚ) / 4, 1 / 2], 0 ≤ p ∧ p ≤ 1) ∧
    ((∀ qv ∈ grid ((1 : ℚ) / 2),
      stage2_count (gatherSorted [(1 : ℚ) / 4, 1 / 2]) qv =
        stage2_count_spec (gatherSorted [(1 : ℚ) / 4, 1 / 2]) qv) ∧
      compute_q [(1 : ℚ) / 4, 1 / 2] (1 / 2) = compute_q_spec [(1 : ℚ) / 4, 1 / 2] (1 / 2)) :=
  ⟨⟨by norm_num, by norm_num, by decide!, by decide!⟩,
    compute_q_refines_spec [(1 : ℚ) / 4, 1 / 2] (1 / 2) 2 (by norm_num) (by norm_num)
      (by decide!) (by decide!)⟩

/-! ## Minimality of the swept q-values -/

/-- C4 fails as stated: on the valid input `[1]` with `step = 1/2`,
`compute_q` succeeds and the only hypothesis gets output `q* = 1.0`, yet no
grid level at all — in particular none `≤ q*` — makes the stage-2 pass
reject it at or above its sorted rank (it is never rejected, keeping its
initialized value `1.0`). -/
theorem compute_q_sweep_minimality_cex :
    compute_q [(1 : ℚ)] (1 / 2) = .ok [1] ∧
    (1 : ℚ) / 2 = 1 / ((2 : ℕ) : ℚ) ∧
    ([(1 : ℚ)]).getD 0 0 = 1 ∧
    ¬ ∃ q ∈ grid ((1 : ℚ) / 2), q ≤ (1 : ℚ) ∧
        (argsort [(1 : ℚ)]).indexOf 0 < stage2_count (gatherSorted [(1 : ℚ)]) q :=
  ⟨eq_ok_of_toOption _ _ (by decide!), by norm_num, by decide!, by decide!⟩

/-- C4 (amended): for a successful `compute_q` on a unit-fraction step, and
any hypothesis `i` with output `q*`: if the stage-2 pass rejects `i` at or
above its sorted rank at some grid level, then it does so at some grid level
`q ≤ q*`; and no grid level strictly below `q*` ever does.  (The amendment
conditions the existence half on the hypothesis being rejected at some grid
level at all: a hypothesis never rejected keeps its initialized `q* = 1.0`,
and no level rejects it.) -/
theorem compute_q_sweep_minimality (pvals : List ℚ) (step : ℚ) (qs : List ℚ)
    (h : compute_q pvals step = .ok qs) (n : ℕ) (hn : 1 ≤ n)
    (hstep : step = 1 / (n : ℚ)) (i : ℕ) (hi : i < pvals.length) :
    ((∃ q ∈ grid step, (argsort pvals).indexOf i < stage2_count (gatherSorted pvals) q) →
      ∃ q ∈ grid step, q ≤ qs.getD i 0 ∧
        (argsort pvals).indexOf i < stage2_count (gatherSorted pvals) q) ∧
    (∀ q ∈ grid step, q < qs.getD i 0 →
      ¬ ((argsort pvals).indexOf i < stage2_count (gatherSorted pvals) q)) := by
  have hout := compute_q_out_minFold pvals step qs h hi
  constructor
  · rintro ⟨q, hq, hP⟩
    rcases minFold_mem_or_init
        (fun k q => k < stage2_count (gatherSorted pvals) q) ((argsort pvals).indexOf i)
        (grid step) 1 with h1 | ⟨hm, hPF⟩
    · refine ⟨q, hq, ?_, hP⟩
      rw [hout, h1]
      rw [hstep] at hq
      exact grid_le_one hn hq
    · exact ⟨_, hm, le_of_eq hout.symm, hPF⟩
  · intro q hq hlt hP
    have hle := minFold_le_of_mem
      (fun k q => k < stage2_count (gatherSorted pvals) q) ((argsort pvals).indexOf i)
      (grid step) 1 hq hP
    rw [← hout] at hle
    exact absurd hlt (not_lt.mpr hle)

/-- Witness for the amended C4 at `pvals = [1/4]`, `step = 1/2`. -/
theorem compute_q_sweep_minimality_witness :
    (compute_q [(1 : ℚ) / 4] (1 / 2) = .ok [1 / 2] ∧ 1 ≤ 2 ∧
      (1 : ℚ) / 2 = 1 / ((2 : ℕ) : ℚ) ∧ 0 < ([(1 : ℚ) / 4]).length) ∧
    ((∃ q ∈ grid ((1 : ℚ) / 2),
        (argsort [(1 : ℚ) / 4]).indexOf 0 < stage2_count (gatherSorted [(1 : ℚ) / 4]) q) →
      ∃ q ∈ grid ((1 : ℚ) / 2), q ≤ ([(1 : ℚ) / 2]).getD 0 0 ∧
        (argsort [(1 : ℚ) / 4]).indexOf 0 < stage2_count (gatherSorted [(1 : ℚ) / 4]) q) ∧
    (∀ q ∈ grid ((1 : ℚ) / 2), q < ([(1 : ℚ) / 2]).getD 0 0 →
      ¬ ((argsort [(1 : ℚ) / 4]).indexOf 0 < stage2_count (gatherSorted [(1 : ℚ) / 4]) q)) :=
  ⟨⟨eq_ok_of_toOption _ _ (by decide!), by norm_num, by norm_num, by decide!⟩,
    compute_q_sweep_minimality [(1 : ℚ) / 4] (1 / 2) [1 / 2]
      (eq_ok_of_toOption _ _ (by decide!)) 2 (by norm_num) (by norm_num) 0 (by decide!)⟩

/-! ## Chunked evaluation of the sweep -/

lemma sweepN_foldl (s : List ℚ) (step : ℚ) :
    ∀ (c : ℕ) (hi : ℕ) (b : List ℚ),
      ((List.range c).map (fun j => ((hi - j : ℕ) : ℚ) * step)).foldl (sweep_step s) b =
        sweepN s step b hi c := by
  intro c
  induction c with
  | zero =>
    intro hi b
    rfl
  | succ c ih =>
    intro hi b
    rw [List.range_succ_eq_map, List.map_cons, List.foldl_cons, List.map_map]
    have hfun : ((fun j => ((hi - j : ℕ) : ℚ) * step) ∘ Nat.succ) =
        (fun j => ((hi - 1 - j : ℕ) : ℚ) * step) := by
      funext j
      simp only [Function.comp]
      congr 2
      omega
    rw [hfun, ih (hi - 1)]
    rfl

lemma grid_foldl_sweepN (s : List ℚ) (step : ℚ) (b : List ℚ) :
    (grid step).foldl (sweep_step s) b = sweepN s step b (n_steps step) (n_steps step) := by
  unfold grid
  exact sweepN_foldl s step (n_steps step) (n_steps step) b

lemma sweepN_add (s : List ℚ) (step : ℚ) :
    ∀ (c1 c2 : ℕ) (hi : ℕ) (b : List ℚ),
      sweepN s step b hi (c1 + c2) = sweepN s step (sweepN s step b hi c1) (hi - c1) c2 := by
  intro c1
  induction c1 with
  | zero =>
    intro c2 hi b
    rw [Nat.zero_add]
    rfl
  | succ c1 ih =>
    intro c2 hi b
    rw [show c1 + 1 + c2 = (c1 + c2) + 1 from by omega]
    show sweepN s step (sweep_step s b ((hi : ℚ) * step)) (hi - 1) (c1 + c2) = _
    rw [ih c2 (hi - 1) (sweep_step s b ((hi : ℚ) * step))]
    rw [show hi - 1 - c1 = hi - (c1 + 1) from by omega]
    rfl

set_option maxRecDepth 100000 in
/-- C5: the reference scenario.  On input
`[0.02, 0.01, 0.03, 0.08, 0.168, 0.168, 0.168]` with `step = 0.001`,
`compute_q` returns exactly `[0.076, 0.076, 0.076, 0.087, 0.107, 0.107, 0.107]`
(exact rational equality, hence well within the spec's `1e-6` tolerance),
in input order rather than sorted order. -/
theorem compute_q_reference_scenario :
    compute_q [0.02, 0.01, 0.03, 0.08, 0.168, 0.168, 0.168] (1 / 1000) =
      .ok [0.076, 0.076, 0.076, 0.087, 0.107, 0.107, 0.107] := by
  have hval : validate [0.02, 0.01, 0.03, 0.08, 0.168, 0.168, 0.168] = .ok () :=
    (validate_ok_iff _).mpr ⟨by decide!, by decide!⟩
  rw [compute_q_of_validate _ _ hval]
  have hsort : gatherSorted [0.02, 0.01, 0.03, 0.08, 0.168, 0.168, 0.168] =
      [0.01, 0.02, 0.03, 0.08, 0.168, 0.168, 0.168] := by decide!
  have hlen7 : ([0.02, 0.01, 0.03, 0.08, 0.168, 0.168, 0.168] : List ℚ).length = 7 := rfl
  have hns : n_steps ((1 : ℚ) / 1000) = 1000 := by decide!
  have c1 : sweepN [0.01, 0.02, 0.03, 0.08, 0.168, 0.168, 0.168] ((1 : ℚ) / 1000)
      (List.replicate 7 1) 1000 250 =
      [751 / 1000, 751 / 1000, 751 / 1000, 751 / 1000, 751 / 1000, 751 / 1000, 751 / 1000] := by
    decide!
  have c2 : sweepN [0.01, 0.02, 0.03, 0.08, 0.168, 0.168, 0.168] ((1 : ℚ) / 1000)
      [751 / 1000, 751 / 1000, 751 / 1000, 751 / 1000, 751 / 1000, 751 / 1000, 751 / 1000]
      750 250 =
      [501 / 1000, 501 / 1000, 501 / 1000, 501 / 1000, 501 / 1000, 501 / 1000, 501 / 1000] := by
    decide!
  have c3 : sweepN [0.01, 0.02, 0.03, 0.08, 0.168, 0.168, 0.168] ((1 : ℚ) / 1000)
      [501 / 1000, 501 / 1000, 501 / 1000, 501 / 1000, 501 / 1000, 501 / 1000, 501 / 1000]
      500 250 =
      [251 / 1000, 251 / 1000, 251 / 1000, 251 / 1000, 251 / 1000, 251 / 1000, 251 / 1000] := by
    decide!
  have c4 : sweepN [0.01, 0.02, 0.03, 0.08, 0.168, 0.168, 0.168] ((1 : ℚ) / 1000)
      [251 / 1000, 251 / 1000, 251 / 1000, 251 / 1000, 251 / 1000, 251 / 1000, 251 / 1000]
      250 250 =
      [19 / 250, 19 / 250, 19 / 250, 87 / 1000, 107 / 1000, 107 / 1000, 107 / 1000] := by
    decide!
  have split1 : sweepN [0.01, 0.02, 0.03, 0.08, 0.168, 0.168, 0.168] ((1 : ℚ) / 1000)
      (List.replicate 7 1) 1000 1000 =
      sweepN [0.01, 0.02, 0.03, 0.08, 0.168, 0.168, 0.168] ((1 : ℚ) / 1000)
        (sweepN [0.01, 0.02, 0.03, 0.08, 0.168, 0.168, 0.168] ((1 : ℚ) / 1000)
          (List.replicate 7 1) 1000 250) 750 750 := by
    have h := sweepN_add [0.01, 0.02, 0.03, 0.08, 0.168, 0.168, 0.168] ((1 : ℚ) / 1000)
      250 750 1000 (List.replicate 7 1)
    rw [show (250 + 750 : ℕ) = 1000 from rfl, show (1000 - 250 : ℕ) = 750 from rfl] at h
    exact h
  have split2 : sweepN [0.01, 0.02, 0.03, 0.08, 0.168, 0.168, 0.168] ((1 : ℚ) / 1000)
      [751 / 1000, 751 / 1000, 751 / 1000, 751 / 1000, 751 / 1000, 751 / 1000, 751 / 1000]
      750 750 =
      sweepN [0.01, 0.02, 0.03, 0.08, 0.168, 0.168, 0.168] ((1 : ℚ) / 1000)
        (sweepN [0.01, 0.02, 0.03, 0.08, 0.168, 0.168, 0.168] ((1 : ℚ) / 1000)
          [751 / 1000, 751 / 1000, 751 / 1000, 751 / 1000, 751 / 1000, 751 / 1000, 751 / 1000]
          750 250) 500 500 := by
    have h := sweepN_add [0.01, 0.02, 0.03, 0.08, 0.168, 0.168, 0.168] ((1 : ℚ) / 1000)
      250 500 750
      [751 / 1000, 751 / 1000, 751 / 1000, 751 / 1000, 751 / 1000, 751 / 1000, 751 / 1000]
    rw [show (250 + 500 : ℕ) = 750 from rfl, show (750 - 250 : ℕ) = 500 from rfl] at h
    exact h
  have split3 : sweepN [0.01, 0.02, 0.03, 0.08, 0.168, 0.168, 0.168] ((1 : ℚ) / 1000)
      [501 / 1000, 501 / 1000, 501 / 1000, 501 / 1000, 501 / 1000, 501 / 1000, 501 / 1000]
      500 500 =
      sweepN [0.01, 0.02, 0.03, 0.08, 0.168, 0.168, 0.168] ((1 : ℚ) / 1000)
        (sweepN [0.01, 0.02, 0.03, 0.08, 0.168, 0.168, 0.168] ((1 : ℚ) / 1000)
          [501 / 1000, 501 / 1000, 501 / 1000, 501 / 1000, 501 / 1000, 501 / 1000, 501 / 1000]
          500 250) 250 250 := by
    have h := sweepN_add [0.01, 0.02, 0.03, 0.08, 0.168, 0.168, 0.168] ((1 : ℚ) / 1000)
      250 250 500
      [501 / 1000, 501 / 1000, 501 / 1000, 501 / 1000, 501 / 1000, 501 / 1000, 501 / 1000]
    rw [show (250 + 250 : ℕ) = 500 from rfl, show (500 - 250 : ℕ) = 250 from rfl] at h
    exact h
  have hbky : bky06_final [0.02, 0.01, 0.03, 0.08, 0.168, 0.168, 0.168] ((1 : ℚ) / 1000) =
      [19 / 250, 19 / 250, 19 / 250, 87 / 1000, 107 / 1000, 107 / 1000, 107 / 1000] := by
    unfold bky06_final
    rw [hsort, hlen7, grid_foldl_sweepN, hns, split1, c1, split2, c2, split3, c3, c4]
  rw [hbky]
  exact congrArg Except.ok (by decide!)

end SharpQ
